import Mathlib

/-!
Verification of the core of the LinkedIn scraper service (src/app.py):
the rate limiter, the retrying fetch client, the URL normalizer, the
comment-analytics aggregator, and the CSV batch orchestration.

The embedding is shallow: each Python function is translated into a Lean
definition over explicit data.  Real time is modelled by a logical clock
(sleeps advance the clock by exactly the requested amount), the HTTP
provider is modelled by an oracle giving the outcome of each attempt, and
every side effect that the claims mention (provider calls, sleeps) is
recorded in an explicit event trace.
-/

/-! ### JSON values

Parsed response bodies.  Mutual inductives are used (instead of nesting
through List) so that decidable equality can be derived; `Json.null` also
stands for the Python value None.  Conversions to ordinary lists are
provided for convenience.
-/

mutual

inductive Json where
  | null
  | bool (b : Bool)
  | num (n : Int)
  | str (s : String)
  | arr (xs : JsonList)
  | obj (kvs : JsonKVs)
  deriving DecidableEq

inductive JsonList where
  | nil
  | cons (hd : Json) (tl : JsonList)
  deriving DecidableEq

inductive JsonKVs where
  | nil
  | cons (k : String) (v : Json) (tl : JsonKVs)
  deriving DecidableEq

end

def JsonList.toList : JsonList → List Json
  | .nil => []
  | .cons h t => h :: t.toList

def JsonList.ofList : List Json → JsonList
  | [] => .nil
  | h :: t => .cons h (JsonList.ofList t)

def JsonKVs.ofList : List (String × Json) → JsonKVs
  | [] => .nil
  | (k, v) :: t => .cons k v (JsonKVs.ofList t)

/-- Association-list lookup, modelling Python dict access (dict keys are
unique, so first match is the match). -/
def JsonKVs.find? (k : String) : JsonKVs → Option Json
  | .nil => none
  | .cons k' v t => if k' = k then some v else JsonKVs.find? k t

/-- Convenience constructor from a list of fields. -/
def Json.mkObj (l : List (String × Json)) : Json := .obj (JsonKVs.ofList l)

/-- Convenience constructor from a list of elements. -/
def Json.mkArr (l : List Json) : Json := .arr (JsonList.ofList l)

/-- Python truthiness of a JSON value: None, False, 0, empty string, empty
list and empty dict are falsy; everything else is truthy. -/
def Json.isTruthy : Json → Bool
  | .null => false
  | .bool b => b
  | .num n => decide (n ≠ 0)
  | .str s => decide (s ≠ "")
  | .arr .nil => false
  | .arr (.cons _ _) => true
  | .obj .nil => false
  | .obj (.cons _ _ _) => true

/-- Python d.get(key, default) on a dict.  (The code only applies .get to
values that are dicts at runtime; on a non-dict JSON value this model
returns the default.) -/
def Json.getD (j : Json) (k : String) (d : Json) : Json :=
  match j with
  | .obj kvs => (kvs.find? k).getD d
  | _ => d

/-- View a JSON value as a list, for iteration.  The code only iterates
values that are JSON arrays (the provider's comment list). -/
def Json.asArr : Json → List Json
  | .arr xs => xs.toList
  | _ => []

/-- View a JSON value as an integer (reaction counts).  The code only does
arithmetic on values that are numbers. -/
def Json.asInt : Json → Int
  | .num n => n
  | _ => 0

/-! ### Characters and the URL normalizer

Model of clean_linkedin_url (src/app.py lines 62-64):
urlunparse(urlparse(url)._replace(query="")).

urlparse and urlunparse are modelled after CPython urllib.parse
(urlsplit/urlunsplit; the path-params component, which urlparse splits off
the path at a ";" and urlunparse rejoins verbatim, is kept inside the path
here).  A URL is a list of characters.  CPython first removes tab, CR and
LF bytes, then takes a scheme when the text before the first ":" is a
nonempty run of scheme characters starting with an ASCII letter (the
scheme is lowercased - only ASCII characters are possible there, so ASCII
lowercasing is exact), then a "//"-delimited authority, then the fragment
after the first "#", then the query after the first "?".  The model does
not raise on mismatched IPv6 brackets in the authority, a case where
CPython raises ValueError.
-/

abbrev Chars := List Char

/-- ASCII uppercase letter, by code point. -/
def upperAlpha (c : Char) : Bool := decide (65 ≤ c.toNat ∧ c.toNat ≤ 90)

/-- ASCII lowercase letter, by code point. -/
def lowerAlpha (c : Char) : Bool := decide (97 ≤ c.toNat ∧ c.toNat ≤ 122)

/-- ASCII letter. -/
def asciiAlpha (c : Char) : Bool := upperAlpha c || lowerAlpha c

/-- ASCII digit. -/
def asciiDigit (c : Char) : Bool := decide (48 ≤ c.toNat ∧ c.toNat ≤ 57)

/-- Characters allowed in a URL scheme (CPython scheme_chars). -/
def schemeChar (c : Char) : Bool :=
  asciiAlpha c || asciiDigit c || c == '+' || c == '-' || c == '.'

/-- Not one of the bytes CPython strips from a URL before parsing
(tab, CR, LF). -/
def plainChar (c : Char) : Bool := decide (¬ (c.toNat = 9 ∨ c.toNat = 13 ∨ c.toNat = 10))

/-- CPython removes tab, CR and LF from the URL before splitting it. -/
def stripCtl (u : Chars) : Chars := u.filter plainChar

/-- Split a list at the first occurrence of a character; the delimiter is
dropped.  Returns none when the character does not occur. -/
def splitOnce (d : Char) : Chars → Option (Chars × Chars)
  | [] => none
  | c :: cs =>
    if c = d then some ([], cs)
    else
      match splitOnce d cs with
      | none => none
      | some (a, b) => some (c :: a, b)

/-- A valid URL scheme name: nonempty, starts with an ASCII letter, all
characters scheme characters. -/
def validScheme : Chars → Bool
  | [] => false
  | c :: cs => asciiAlpha c && (c :: cs).all schemeChar

/-- Take the scheme off the front of a URL, if the text before the first
":" is a valid scheme name; the scheme is lowercased. -/
def splitScheme (u : Chars) : Chars × Chars :=
  match splitOnce ':' u with
  | some (pre, post) =>
    if validScheme pre then (pre.map Char.toLower, post) else ([], u)
  | none => ([], u)

/-- A character that ends the authority component. -/
def netlocDelim (c : Char) : Bool := c == '/' || c == '?' || c == '#'

/-- Split the authority (everything up to the next "/", "?" or "#") off
the front of the rest of the URL. -/
def splitNetloc (u : Chars) : Chars × Chars :=
  (u.takeWhile (fun c => ! netlocDelim c), u.dropWhile (fun c => ! netlocDelim c))

structure UrlParts where
  scheme : Chars
  netloc : Chars
  path : Chars
  query : Chars
  fragment : Chars
  deriving DecidableEq

/-- Split the fragment (everything after the first "#") off the end. -/
def splitFragment (u : Chars) : Chars × Chars :=
  match splitOnce '#' u with
  | some (a, b) => (a, b)
  | none => (u, [])

/-- Split the query (everything after the first "?") off the end. -/
def splitQuery (u : Chars) : Chars × Chars :=
  match splitOnce '?' u with
  | some (a, b) => (a, b)
  | none => (u, [])

/-- The splitting sequence of urlsplit after the unsafe bytes are removed:
scheme, then authority, then fragment, then query. -/
def parseCore (v : Chars) : UrlParts :=
  let (scheme, u1) := splitScheme v
  let (netloc, u2) :=
    if u1.take 2 = ['/', '/'] then splitNetloc (u1.drop 2) else ([], u1)
  let (u3, fragment) := splitFragment u2
  let (path, query) := splitQuery u3
  ⟨scheme, netloc, path, query, fragment⟩

/-- Model of urllib.parse.urlparse (with the params component kept inside
the path). -/
def urlparse (url : Chars) : UrlParts :=
  parseCore (stripCtl url)

/-- Model of urllib.parse.urlunparse (CPython urlunsplit): re-add the "//"
when there is an authority or the path itself starts with "//", then the
scheme with ":", then "?" plus the query when the query is nonempty, then
"#" plus the fragment when the fragment is nonempty. -/
def urlunparse (p : UrlParts) : Chars :=
  let url := p.path
  let url :=
    if p.netloc ≠ [] ∨ url.take 2 = ['/', '/'] then
      '/' :: '/' :: p.netloc ++ (if url ≠ [] ∧ url.take 1 ≠ ['/'] then '/' :: url else url)
    else url
  let url := if p.scheme ≠ [] then p.scheme ++ ':' :: url else url
  let url := if p.query ≠ [] then url ++ '?' :: p.query else url
  if p.fragment ≠ [] then url ++ '#' :: p.fragment else url

/-- src/app.py lines 62-64: parse the URL, blank the query, reassemble. -/
def clean_linkedin_url (url : Chars) : Chars :=
  urlunparse { urlparse url with query := [] }

/-- String-level wrapper of clean_linkedin_url. -/
def cleanUrlString (s : String) : String :=
  String.mk (clean_linkedin_url s.toList)

/-- The invariant satisfied by every output of urlparse: the scheme is
empty or a lowercased valid scheme name; the authority holds none of
"/", "?", "#"; the path holds no "?" or "#" and, when an authority was
parsed, is empty or starts with "/"; with no scheme and no authority the
path has no valid-scheme text before a ":" (otherwise parsing would have
taken it as the scheme); and no component holds a stripped byte (tab, CR,
LF).  Nothing is asserted about the query, which the normalizer blanks. -/
structure ParseRange (p : UrlParts) : Prop where
  scheme_ok : p.scheme = [] ∨ (validScheme p.scheme = true ∧ p.scheme.map Char.toLower = p.scheme)
  netloc_ok : ∀ c ∈ p.netloc, netlocDelim c = false
  path_no_q : '?' ∉ p.path
  path_no_h : '#' ∉ p.path
  slash_ok : p.netloc ≠ [] → p.path = [] ∨ ∃ t, p.path = '/' :: t
  nofake : p.scheme = [] → p.netloc = [] →
    ∀ pre post, p.path = pre ++ ':' :: post → validScheme pre = false
  plain_scheme : ∀ c ∈ p.scheme, plainChar c = true
  plain_netloc : ∀ c ∈ p.netloc, plainChar c = true
  plain_path : ∀ c ∈ p.path, plainChar c = true
  plain_frag : ∀ c ∈ p.fragment, plainChar c = true

/-! ### Rate limiter

Model of rate_limit (src/app.py lines 44-56) on a logical clock: the
state carries the shared last_call_time and the current time; time.sleep
advances the clock by exactly the requested duration, and time.time reads
the clock.  rate_limit reads the clock, sleeps off any deficit below
min_interval, and stores the post-sleep reading in last_call_time before
returning.
-/

structure LimiterState where
  last_call_time : Rat
  now : Rat
  deriving DecidableEq

def rate_limit (min_interval : Rat) (st : LimiterState) : LimiterState :=
  let elapsed := st.now - st.last_call_time
  let t := if elapsed < min_interval then st.now + (min_interval - elapsed) else st.now
  { last_call_time := t, now := t }

/-! ### Retrying fetch client

Model of fetch_from_rapidapi (src/app.py lines 67-103).  The provider is
an oracle mapping the attempt number (0, 1, 2) to that attempt's outcome:
either an HTTP response (status code plus parsed body) or a raised
requests.RequestException (connection error, timeout).  The loop runs over
the attempt numbers [0, 1, 2] exactly as "for attempt in range(3)".

Outcome mapping: requests.Response.raise_for_status raises
requests.HTTPError (a RequestException) for any status of 400 or more;
the except branch catches every RequestException and either retries or,
when attempt == 2, raises HTTPException(500, str(e)).  A 429 sleeps
2 ** attempt and continues.  A delivered non-error response whose parsed
body is falsy raises HTTPException(502, "Empty response."), which is NOT
a RequestException, so it propagates out of the loop at once.  Exhausting
the loop raises HTTPException(429, "RapidAPI quota exceeded.").  The
trace records each attempt and each backoff sleep.  (The missing-key
precheck before the loop and the rate_limit call inside each attempt are
not traced here; no claim mentions them.)
-/

inductive AttemptOutcome where
  | resp (status : Nat) (body : Json)
  | exc (msg : String)
  deriving DecidableEq

inductive FetchResult where
  | success (data : Json)
  | httpError (status : Nat) (detail : String)
  deriving DecidableEq

inductive FetchEvent where
  | attempt (n : Nat)
  | backoff (seconds : Nat)
  deriving DecidableEq

/-- Model of str(e) for the HTTPError raised by raise_for_status: some
message naming the status code. -/
def raiseForStatusMsg (status : Nat) : String :=
  toString status ++ " Error"

/-- The retry loop of fetch_from_rapidapi, over the list of remaining
attempt numbers.  An exhausted list is the loop falling through to
"raise HTTPException(429, ...)". -/
def fetchAttempts (oracle : Nat → AttemptOutcome) : List Nat → FetchResult × List FetchEvent
  | [] => (.httpError 429 "RapidAPI quota exceeded.", [])
  | a :: rest =>
    match oracle a with
    | .exc msg =>
      if a = 2 then (.httpError 500 msg, [.attempt a])
      else
        let (r, evs) := fetchAttempts oracle rest
        (r, .attempt a :: evs)
    | .resp status body =>
      if status = 429 then
        let (r, evs) := fetchAttempts oracle rest
        (r, .attempt a :: .backoff (2 ^ a) :: evs)
      else if 400 ≤ status then
        if a = 2 then (.httpError 500 (raiseForStatusMsg status), [.attempt a])
        else
          let (r, evs) := fetchAttempts oracle rest
          (r, .attempt a :: evs)
      else if ! body.isTruthy then (.httpError 502 "Empty response.", [.attempt a])
      else (.success body, [.attempt a])

/-- src/app.py lines 80-103: up to three attempts. -/
def fetch_from_rapidapi (oracle : Nat → AttemptOutcome) : FetchResult × List FetchEvent :=
  fetchAttempts oracle [0, 1, 2]

/-- Number of attempts recorded in a fetch trace. -/
def attemptCount (evs : List FetchEvent) : Nat :=
  (evs.filter (fun e => match e with | .attempt _ => true | _ => false)).length

/-- Number of backoff sleeps recorded in a fetch trace. -/
def backoffCount (evs : List FetchEvent) : Nat :=
  (evs.filter (fun e => match e with | .backoff _ => true | _ => false)).length

/-! ### Comment analytics aggregator

Model of the summary built in comment_analytics (src/app.py lines
179-194) and upload_comment_analytics_csv (lines 372-385).

authors  = [c.get("author", {}).get("name") for c in comments
            if c.get("author", {}).get("name")]
reactions = [c.get("stats", {}).get("total_reactions", 0) for c in comments]
summary = { total_comments: len(comments),
            unique_commenters: len(set(authors)),
            average_reactions: statistics.mean(reactions) if reactions else 0,
            top_commenters: Counter(authors).most_common(5) }

statistics.mean on integers is the exact arithmetic mean, modelled in Rat.
Counter iterates authors keeping the first-occurrence order of distinct
keys, and most_common(5) sorts by count descending, ties kept in that
first-occurrence order (heapq.nlargest is stable this way), taking 5.
-/

/-- The author-name value of one raw comment:
c.get("author", {}).get("name").  A missing name is Json.null (None). -/
def authorNameOf (c : Json) : Json :=
  (c.getD "author" (Json.obj .nil)).getD "name" Json.null

/-- The reaction count of one raw comment:
c.get("stats", {}).get("total_reactions", 0). -/
def reactionOf (c : Json) : Int :=
  ((c.getD "stats" (Json.obj .nil)).getD "total_reactions" (Json.num 0)).asInt

/-- The authors list: the truthy author-name values, in comment order. -/
def commentAuthors (comments : List Json) : List Json :=
  (comments.filter (fun c => (authorNameOf c).isTruthy)).map authorNameOf

/-- The reactions list: every comment contributes, missing counts as 0. -/
def commentReactions (comments : List Json) : List Int :=
  comments.map reactionOf

/-- Occurrences of a value in a list. -/
def countOcc (a : Json) (l : List Json) : Nat :=
  (l.filter (fun x => x = a)).length

/-- Distinct elements of a list in first-occurrence order (the iteration
order of Counter / dict keys). -/
def firstSeenAux (seen : List Json) : List Json → List Json
  | [] => []
  | a :: l =>
    if a ∈ seen then firstSeenAux seen l
    else a :: firstSeenAux (a :: seen) l

def firstSeen (l : List Json) : List Json := firstSeenAux [] l

/-- Stable insertion (descending by count): an element moves left past
strictly smaller counts only, so existing order is kept among equals. -/
def insertByCount (x : Json × Nat) : List (Json × Nat) → List (Json × Nat)
  | [] => [x]
  | y :: ys => if y.2 ≤ x.2 then x :: y :: ys else y :: insertByCount x ys

/-- Stable sort, descending by count. -/
def sortByCountDesc (l : List (Json × Nat)) : List (Json × Nat) :=
  l.foldr insertByCount []

/-- Counter(l).most_common(n): the n distinct values with the highest
occurrence counts, ties broken by first occurrence in l. -/
def mostCommon (n : Nat) (l : List Json) : List (Json × Nat) :=
  (sortByCountDesc ((firstSeen l).map (fun a => (a, countOcc a l)))).take n

structure AnalyticsSummary where
  total_comments : Nat
  unique_commenters : Nat
  average_reactions : Rat
  top_commenters : List (Json × Nat)
  deriving DecidableEq

/-- statistics.mean(reactions) if reactions else 0. -/
def averageOf (reactions : List Int) : Rat :=
  if reactions.isEmpty then 0 else (reactions.sum : Rat) / (reactions.length : Rat)

/-- The summary dict of src/app.py lines 186-194 / 380-385. -/
def mkSummary (comments : List Json) : AnalyticsSummary :=
  { total_comments := comments.length
    unique_commenters := (firstSeen (commentAuthors comments)).length
    average_reactions := averageOf (commentReactions comments)
    top_commenters := mostCommon 5 (commentAuthors comments) }

/-- data.get("data", {}).get("comments", []). -/
def getComments (data : Json) : List Json :=
  ((data.getD "data" (Json.obj .nil)).getD "comments" (Json.mkArr [])).asArr

inductive AnalyticsResult where
  | noComments
  | ok (s : AnalyticsSummary)
  deriving DecidableEq

/-- src/app.py lines 179-194: extract the comments from a fetched body;
an empty list is the failure {"success": False, "error": "No comments
found"}; otherwise the summary. -/
def comment_analytics (data : Json) : AnalyticsResult :=
  let comments := getComments data
  if comments.isEmpty then .noComments else .ok (mkSummary comments)

/-! ### Batch orchestration

Models of upload_usernames_csv (src/app.py lines 222-250) and
upload_comment_analytics_csv (lines 351-394).  The uploaded CSV is a
frame: the list of column names plus the rows of the key column, as
strings (pandas parsing itself is an external collaborator).  The fetch
client is an oracle from the trimmed key to a FetchResult; a
FetchResult.httpError is the raised HTTPException that the per-row
"except HTTPException" catches.  The trace records each provider call and
each inter-row time.sleep.
-/

inductive BatchItem where
  | data (key : String) (payload : Json)
  | error (key : String) (detail : String)
  | summary (key : String) (s : AnalyticsSummary)
  deriving DecidableEq

inductive BatchEvent where
  | fetchCall (key : String)
  | sleep (seconds : Rat)
  deriving DecidableEq

structure BatchResponse where
  success : Bool
  count : Nat
  results : List BatchItem
  deriving DecidableEq

structure CsvFrame where
  columns : List String
  keyColumn : List String

/-- The outcome of one upload endpoint: either a raised HTTPException
(status, detail) or the JSON response dict. -/
inductive BatchOutcome where
  | httpError (status : Nat) (detail : String)
  | ok (response : BatchResponse)
  deriving DecidableEq

/-- Python whitespace, as removed by str.strip() with no argument
(space, tab, LF, CR, vertical tab, form feed). -/
def pyWhitespace (c : Char) : Bool :=
  c == ' ' || c == '\t' || c == '\n' || c == '\r' ||
    decide (c.toNat = 11) || decide (c.toNat = 12)

/-- Python str.strip(): drop leading and trailing whitespace. -/
def pyStrip (s : String) : String :=
  String.mk (((s.toList.dropWhile pyWhitespace).reverse.dropWhile pyWhitespace).reverse)

/-- The item appended for one processed username row: {"username": u,
"data": data} on success, {"username": u, "error": e.detail} when the
fetch raised. -/
def itemFor (fetch : String → FetchResult) (key : String) : BatchItem :=
  match fetch key with
  | .success d => .data key d
  | .httpError _ detail => .error key detail

/-- The row loop of upload_usernames_csv: trim each username, skip falsy
ones, fetch and append the item, then time.sleep(1.5) - the sleep runs
after failed rows too, since it sits after the try/except. -/
def processUsernames (fetch : String → FetchResult) : List String → List BatchItem × List BatchEvent
  | [] => ([], [])
  | u :: rest =>
    let u' := pyStrip u
    if u' = "" then processUsernames fetch rest
    else
      let (items, evs) := processUsernames fetch rest
      (itemFor fetch u' :: items, .fetchCall u' :: .sleep (3 / 2) :: evs)

/-- src/app.py lines 222-250: schema check, then the row loop, then
{"success": True, "count": len(results), "results": results}.  A missing
"username" column raises HTTPException(400, ...) before the loop, hence
before any provider call. -/
def upload_usernames_csv (fetch : String → FetchResult) (df : CsvFrame) :
    BatchOutcome × List BatchEvent :=
  if "username" ∉ df.columns then
    (.httpError 400 "CSV must contain a \x27username\x27 column.", [])
  else
    let (items, evs) := processUsernames fetch df.keyColumn
    (.ok { success := true, count := items.length, results := items }, evs)

/-- One processed row of upload_comment_analytics_csv (lines 369-392):
on a raised fetch the except branch appends the error item and the
trailing sleep runs; on a fetched body with no comments the loop appends
the error item and hits "continue", skipping the sleep; otherwise it
appends the summary item and sleeps. -/
def analyticsRow (fetch : String → FetchResult) (url : String) : BatchItem × List BatchEvent :=
  match fetch url with
  | .httpError _ detail => (.error url detail, [.fetchCall url, .sleep (3 / 2)])
  | .success data =>
    let comments := getComments data
    if comments.isEmpty then (.error url "No comments found", [.fetchCall url])
    else (.summary url (mkSummary comments), [.fetchCall url, .sleep (3 / 2)])

/-- The row loop of upload_comment_analytics_csv: each post_url is
trimmed and normalized by clean_linkedin_url, falsy keys are skipped. -/
def processAnalytics (fetch : String → FetchResult) : List String → List BatchItem × List BatchEvent
  | [] => ([], [])
  | u :: rest =>
    let key := cleanUrlString (pyStrip u)
    if key = "" then processAnalytics fetch rest
    else
      let (item, evs0) := analyticsRow fetch key
      let (items, evs) := processAnalytics fetch rest
      (item :: items, evs0 ++ evs)

/-- src/app.py lines 351-394: schema check then the analytics row loop. -/
def upload_comment_analytics_csv (fetch : String → FetchResult) (df : CsvFrame) :
    BatchOutcome × List BatchEvent :=
  if "post_url" ∉ df.columns then
    (.httpError 400 "CSV must contain a \x27post_url\x27 column.", [])
  else
    let (items, evs) := processAnalytics fetch df.keyColumn
    (.ok { success := true, count := items.length, results := items }, evs)

/-- Number of provider calls recorded in a batch trace. -/
def fetchCallCount (evs : List BatchEvent) : Nat :=
  (evs.filter (fun e => match e with | .fetchCall _ => true | _ => false)).length

/-- Number of inter-row sleeps recorded in a batch trace. -/
def sleepCount (evs : List BatchEvent) : Nat :=
  (evs.filter (fun e => match e with | .sleep _ => true | _ => false)).length

/-- Whether a processed analytics row takes the "No comments found"
branch, whose "continue" skips the inter-row sleep. -/
def analyticsNoComments (fetch : String → FetchResult) (key : String) : Bool :=
  match fetch key with
  | .success d => (getComments d).isEmpty
  | .httpError _ _ => false

/-- The three-comment example sequence of the specification:
authors A, A, B with 2, 4, 0 reactions. -/
def exampleComments : List Json :=
  [ Json.mkObj [("author", Json.mkObj [("name", Json.str "A")]),
                ("stats", Json.mkObj [("total_reactions", Json.num 2)])],
    Json.mkObj [("author", Json.mkObj [("name", Json.str "A")]),
                ("stats", Json.mkObj [("total_reactions", Json.num 4)])],
    Json.mkObj [("author", Json.mkObj [("name", Json.str "B")]),
                ("stats", Json.mkObj [("total_reactions", Json.num 0)])] ]

/-! ## Theorems -/

/-! ### Helper lemmas on the batch loops -/

/-- The username row loop, in closed form: every row whose stripped key is
nonempty yields exactly one item (success or error alike), and the trace
is one provider call followed by one 1.5-second sleep per processed row. -/
theorem processUsernames_eq (fetch : String → FetchResult) (rows : List String) :
    processUsernames fetch rows =
      (((rows.map pyStrip).filter (fun k => k ≠ "")).map (itemFor fetch),
       ((rows.map pyStrip).filter (fun k => k ≠ "")).flatMap
         (fun k => [.fetchCall k, .sleep (3 / 2)])) := by
  induction rows with
  | nil => rfl
  | cons u rest ih =>
    by_cases h : pyStrip u = ""
    · simp [processUsernames, h, ih]
    · simp [processUsernames, h, ih]

/-- One analytics row: always exactly one provider call; the sleep
follows unless the row took the no-comments branch. -/
theorem analyticsRow_trace (fetch : String → FetchResult) (key : String) :
    (analyticsRow fetch key).2 =
      .fetchCall key ::
        (if analyticsNoComments fetch key then [] else [.sleep (3 / 2)]) := by
  unfold analyticsRow analyticsNoComments
  cases h : fetch key with
  | httpError s d => simp
  | success d =>
    by_cases hc : (getComments d).isEmpty
    · simp [hc]
    · simp [hc]

/-- The analytics row loop trace, in closed form. -/
theorem processAnalytics_trace (fetch : String → FetchResult) (rows : List String) :
    (processAnalytics fetch rows).2 =
      ((rows.map (fun u => cleanUrlString (pyStrip u))).filter (fun k => k ≠ "")).flatMap
        (fun k => .fetchCall k ::
          (if analyticsNoComments fetch k then [] else [.sleep (3 / 2)])) := by
  induction rows with
  | nil => rfl
  | cons u rest ih =>
    by_cases h : cleanUrlString (pyStrip u) = ""
    · simp [processAnalytics, h, ih]
    · simp [processAnalytics, h, ih, analyticsRow_trace]

/-! ### C1 -/

/-- C1 counterexample: the claim says a first-attempt HTTP 404 makes
fetch_from_rapidapi return Failure(NotFound) after exactly 1 attempt.
On the oracle answering 404 every time, the code instead performs 3
attempts (404 is retried like any other RequestException) and ends with
HTTPException(500, str(HTTPError)), not a NotFound failure. -/
theorem fetch_404_single_attempt_counterexample :
    ¬ attemptCount (fetch_from_rapidapi (fun _ => .resp 404 (Json.str "body"))).2 = 1
    ∧ attemptCount (fetch_from_rapidapi (fun _ => .resp 404 (Json.str "body"))).2 = 3
    ∧ (fetch_from_rapidapi (fun _ => .resp 404 (Json.str "body"))).1 =
        .httpError 500 (raiseForStatusMsg 404) := by decide

/-- C1 amended: a fetch whose provider responds HTTP 404 is treated as a
network-class error: raise_for_status raises, the handler retries, and
after the 3rd attempt the outcome is Failure(UpstreamError) (HTTPException
500 carrying the HTTPError message).  No backoff sleep occurs between the
attempts. -/
theorem fetch_404_treated_as_upstream_error (bodies : Nat → Json) :
    fetch_from_rapidapi (fun k => .resp 404 (bodies k)) =
      (.httpError 500 (raiseForStatusMsg 404),
       [.attempt 0, .attempt 1, .attempt 2]) := rfl

/-! ### C2 -/

/-- C2: a fetch whose provider responds HTTP 429 on every attempt returns
Failure(QuotaExceeded) (HTTPException 429, "RapidAPI quota exceeded.")
after exactly 3 attempts, with backoff sleeps of 1, 2 and 4 time-units
(2 to the power of the attempt index); the trace shows the sleeps of 1 and
2 between the attempts and the sleep of 4 right after the final attempt,
before the terminal failure. -/
theorem fetch_429_exhaustion_quota_exceeded (bodies : Nat → Json) :
    fetch_from_rapidapi (fun k => .resp 429 (bodies k)) =
      (.httpError 429 "RapidAPI quota exceeded.",
       [.attempt 0, .backoff 1, .attempt 1, .backoff 2, .attempt 2, .backoff 4]) := rfl

/-! ### C3 -/

/-- C3: a per-row fetch failure never aborts the batch: the row loop in
closed form shows every row with a nonempty stripped key contributes
exactly one item - an error item when its fetch raised - and later rows
are still processed; rows with an empty stripped key are skipped and not
recorded.  In particular the rows ["a", "", "b"] with a failing fetch for
"a" give a response with success=true and exactly the 2 items
[error "a", data "b"]. -/
theorem batch_per_row_failure_isolation :
    (∀ (fetch : String → FetchResult) (rows : List String),
      processUsernames fetch rows =
        (((rows.map pyStrip).filter (fun k => k ≠ "")).map (itemFor fetch),
         ((rows.map pyStrip).filter (fun k => k ≠ "")).flatMap
           (fun k => [.fetchCall k, .sleep (3 / 2)])))
    ∧ (upload_usernames_csv
         (fun k => if k = "a" then FetchResult.httpError 500 "boom"
                   else FetchResult.success (Json.str "ok"))
         { columns := ["username"], keyColumn := ["a", "", "b"] }).1 =
        .ok { success := true, count := 2,
              results := [.error "a" "boom", .data "b" (Json.str "ok")] } :=
  ⟨processUsernames_eq, by decide⟩

/-! ### C4 -/

/-- C4 counterexample: the claim says every processed (non-skipped) row is
followed by the 1.5-time-unit inter-row sleep, including an analytics row
recorded as a failure because its post has no comments.  A one-row
analytics batch whose fetch succeeds with an empty comment list records
the failure item but its "continue" skips the sleep: the trace holds the
provider call and no sleep at all. -/
theorem analytics_no_comments_row_skips_delay_counterexample :
    processAnalytics
        (fun _ => .success (Json.mkObj [("data", Json.mkObj [("comments", Json.mkArr [])])]))
        ["https://www.linkedin.com/posts/x"] =
      ([.error "https://www.linkedin.com/posts/x" "No comments found"],
       [.fetchCall "https://www.linkedin.com/posts/x"])
    ∧ sleepCount
        (processAnalytics
          (fun _ => .success (Json.mkObj [("data", Json.mkObj [("comments", Json.mkArr [])])]))
          ["https://www.linkedin.com/posts/x"]).2 = 0 := by decide

/-- C4 amended: in the plain batch endpoints every processed row -
including rows recorded as fetch failures - is followed by the
1.5-time-unit sleep; in the analytics batch every processed row is
followed by the sleep except a row recorded as "No comments found",
whose "continue" skips it. -/
theorem batch_inter_row_delay_characterization
    (fetch : String → FetchResult) (rows : List String) :
    (processUsernames fetch rows).2 =
      ((rows.map pyStrip).filter (fun k => k ≠ "")).flatMap
        (fun k => [.fetchCall k, .sleep (3 / 2)])
    ∧ (processAnalytics fetch rows).2 =
      ((rows.map (fun u => cleanUrlString (pyStrip u))).filter (fun k => k ≠ "")).flatMap
        (fun k => .fetchCall k ::
          (if analyticsNoComments fetch k then [] else [.sleep (3 / 2)])) :=
  ⟨by rw [processUsernames_eq], processAnalytics_trace fetch rows⟩

/-! ### C5 -/

/-- C5: analytics of a body with an empty comment list is the
"No comments found" failure; on the example comments (A with 2 reactions,
A with 4, B with 0) the summary has total_comments = 3,
unique_commenters = 2, average_reactions = 2 and
top_commenters = [(A, 2), (B, 1)], the tie order being first occurrence. -/
theorem comment_analytics_example_values :
    comment_analytics (Json.mkObj [("data", Json.mkObj [("comments", Json.mkArr [])])]) =
      .noComments
    ∧ comment_analytics
        (Json.mkObj [("data", Json.mkObj [("comments", Json.mkArr exampleComments)])]) =
      .ok (mkSummary exampleComments)
    ∧ (mkSummary exampleComments).total_comments = 3
    ∧ (mkSummary exampleComments).unique_commenters = 2
    ∧ (mkSummary exampleComments).average_reactions = 2
    ∧ (mkSummary exampleComments).top_commenters = [(Json.str "A", 2), (Json.str "B", 1)] := by
  refine ⟨by decide, by rfl, by decide, by decide, ?_, by decide⟩
  show averageOf (commentReactions exampleComments) = 2
  have h : commentReactions exampleComments = [2, 4, 0] := by decide
  rw [h]
  norm_num [averageOf]

/-! ### C6 -/

/-- C6: appending a record with a missing author name (its
author.name lookup gives None) increments total_comments, contributes its
(defaulted) reaction count to the arithmetic mean, and leaves the authors
list - hence unique_commenters and top_commenters - unchanged. -/
theorem analytics_missing_author_asymmetry (cs : List Json) (c : Json)
    (h : authorNameOf c = Json.null) :
    (mkSummary (cs ++ [c])).total_comments = cs.length + 1
    ∧ commentAuthors (cs ++ [c]) = commentAuthors cs
    ∧ (mkSummary (cs ++ [c])).unique_commenters = (mkSummary cs).unique_commenters
    ∧ (mkSummary (cs ++ [c])).top_commenters = (mkSummary cs).top_commenters
    ∧ commentReactions (cs ++ [c]) = commentReactions cs ++ [reactionOf c]
    ∧ (mkSummary (cs ++ [c])).average_reactions =
        (((commentReactions cs).sum : Rat) + (reactionOf c : Rat)) / ((cs.length : Rat) + 1) := by
  have hauth : commentAuthors (cs ++ [c]) = commentAuthors cs := by
    unfold commentAuthors
    rw [List.filter_append]
    simp [h, Json.isTruthy]
  have hre : commentReactions (cs ++ [c]) = commentReactions cs ++ [reactionOf c] := by
    simp [commentReactions]
  refine ⟨by simp [mkSummary], hauth, by simp [mkSummary, hauth],
          by simp [mkSummary, hauth], hre, ?_⟩
  show averageOf (commentReactions (cs ++ [c])) = _
  rw [hre]
  unfold averageOf
  rw [if_neg (by simp)]
  have hlen : (commentReactions cs).length = cs.length := by simp [commentReactions]
  simp only [List.sum_append, List.length_append, hlen, List.sum_cons, List.sum_nil,
    List.length_cons, List.length_nil, add_zero, Nat.zero_add]
  push_cast
  ring

/-- C6 witness: the theorem applied to the example comments and a record
with no author object at all. -/
theorem analytics_missing_author_asymmetry_witness :
    authorNameOf (Json.mkObj [("stats", Json.mkObj [("total_reactions", Json.num 7)])]) =
      Json.null
    ∧ ((mkSummary (exampleComments ++
          [Json.mkObj [("stats", Json.mkObj [("total_reactions", Json.num 7)])]])).total_comments =
        exampleComments.length + 1
      ∧ commentAuthors (exampleComments ++
          [Json.mkObj [("stats", Json.mkObj [("total_reactions", Json.num 7)])]]) =
        commentAuthors exampleComments
      ∧ (mkSummary (exampleComments ++
          [Json.mkObj [("stats", Json.mkObj [("total_reactions", Json.num 7)])]])).unique_commenters =
        (mkSummary exampleComments).unique_commenters
      ∧ (mkSummary (exampleComments ++
          [Json.mkObj [("stats", Json.mkObj [("total_reactions", Json.num 7)])]])).top_commenters =
        (mkSummary exampleComments).top_commenters
      ∧ commentReactions (exampleComments ++
          [Json.mkObj [("stats", Json.mkObj [("total_reactions", Json.num 7)])]]) =
        commentReactions exampleComments ++
          [reactionOf (Json.mkObj [("stats", Json.mkObj [("total_reactions", Json.num 7)])])]
      ∧ (mkSummary (exampleComments ++
          [Json.mkObj [("stats", Json.mkObj [("total_reactions", Json.num 7)])]])).average_reactions =
        (((commentReactions exampleComments).sum : Rat) +
            (reactionOf (Json.mkObj [("stats", Json.mkObj [("total_reactions", Json.num 7)])]) : Rat)) /
          ((exampleComments.length : Rat) + 1)) :=
  ⟨by decide, analytics_missing_author_asymmetry exampleComments _ (by decide)⟩

/-! ### C7 -/

/-- C7: an upload whose frame lacks the "username" column fails with the
schema error HTTPException(400) and an empty trace: zero provider calls
are made. -/
theorem upload_missing_column_schema_error_no_fetch
    (fetch : String → FetchResult) (df : CsvFrame)
    (h : "username" ∉ df.columns) :
    upload_usernames_csv fetch df =
      (.httpError 400 "CSV must contain a \x27username\x27 column.", [])
    ∧ fetchCallCount (upload_usernames_csv fetch df).2 = 0 := by
  constructor
  · simp [upload_usernames_csv, h]
  · simp [upload_usernames_csv, h, fetchCallCount]

/-- C7 witness: the theorem applied to a frame whose only column is
"user". -/
theorem upload_missing_column_schema_error_no_fetch_witness :
    "username" ∉ ["user"]
    ∧ (upload_usernames_csv (fun _ => .success Json.null)
          { columns := ["user"], keyColumn := ["a"] } =
        (.httpError 400 "CSV must contain a \x27username\x27 column.", [])
      ∧ fetchCallCount (upload_usernames_csv (fun _ => .success Json.null)
          { columns := ["user"], keyColumn := ["a"] }).2 = 0) :=
  ⟨by decide,
   upload_missing_column_schema_error_no_fetch (fun _ => .success Json.null)
     { columns := ["user"], keyColumn := ["a"] } (by decide)⟩

/-! ### C9 -/

/-- C9: with the logical clock, if a second rate_limit call starts at any
time not before the moment the first returned (the first call stored its
return time in last_call_time), the second call returns no earlier than
min_interval after the first returned. -/
theorem rate_limit_consecutive_spacing
    (min_interval : Rat) (st : LimiterState) (d : Rat) (hd : 0 ≤ d) :
    min_interval ≤
      (rate_limit min_interval
        { last_call_time := (rate_limit min_interval st).last_call_time
          now := (rate_limit min_interval st).now + d }).now
      - (rate_limit min_interval st).now := by
  unfold rate_limit
  dsimp only
  have harg : (if st.now - st.last_call_time < min_interval then
      st.now + (min_interval - (st.now - st.last_call_time)) else st.now) =
      (rate_limit min_interval st).now := rfl
  set t := if st.now - st.last_call_time < min_interval then
      st.now + (min_interval - (st.now - st.last_call_time)) else st.now with ht
  by_cases hlt : t + d - t < min_interval
  · rw [if_pos hlt]
    ring_nf
    linarith
  · rw [if_neg hlt]
    have : t + d - t = d := by ring
    rw [this] at hlt
    linarith

/-- C9 witness: the theorem at min_interval 6/5, the zero state and a
zero inter-call gap. -/
theorem rate_limit_consecutive_spacing_witness :
    (0 : Rat) ≤ 0
    ∧ (6 / 5 : Rat) ≤
        (rate_limit (6 / 5)
          { last_call_time := (rate_limit (6 / 5) ⟨0, 0⟩).last_call_time
            now := (rate_limit (6 / 5) ⟨0, 0⟩).now + 0 }).now
        - (rate_limit (6 / 5) ⟨0, 0⟩).now :=
  ⟨le_refl 0, rate_limit_consecutive_spacing (6 / 5) ⟨0, 0⟩ 0 (le_refl 0)⟩

/-! ### C10 -/

/-- C10: whenever the loop reaches an attempt whose delivered response is
2xx with a falsy (empty) parsed body, the HTTPException(502, "Empty
response.") ends the fetch at once: the result is the terminal
EmptyResponse failure and the trace ends with that single attempt,
whatever attempt budget was still remaining. -/
theorem fetch_empty_body_terminal_failure (oracle : Nat → AttemptOutcome)
    (a : Nat) (rest : List Nat) (status : Nat) (body : Json)
    (hresp : oracle a = .resp status body)
    (h2xx : 200 ≤ status ∧ status < 300)
    (hfalsy : body.isTruthy = false) :
    fetchAttempts oracle (a :: rest) = (.httpError 502 "Empty response.", [.attempt a]) := by
  have h429 : ¬ status = 429 := by omega
  have h400 : ¬ 400 ≤ status := by omega
  simp [fetchAttempts, hresp, h429, h400, hfalsy]

/-- C10 witness: the theorem on the first attempt with a full remaining
budget, a 200 status and an empty-object body. -/
theorem fetch_empty_body_terminal_failure_witness :
    ((fun _ => AttemptOutcome.resp 200 (Json.mkObj [])) 0 = .resp 200 (Json.mkObj []))
    ∧ fetchAttempts (fun _ => AttemptOutcome.resp 200 (Json.mkObj [])) [0, 1, 2] =
        (.httpError 502 "Empty response.", [.attempt 0]) :=
  ⟨rfl,
   fetch_empty_body_terminal_failure (fun _ => AttemptOutcome.resp 200 (Json.mkObj []))
     0 [1, 2] 200 (Json.mkObj []) rfl (by decide) (by decide)⟩

/-! ### C8: the URL normalizer

Helper development: every output of urlparse satisfies ParseRange
(urlparse_range), and on a ParseRange tuple with a blank query, parsing
the urlunparse reassembly restores the tuple exactly
(urlparse_urlunparse).  Idempotence of clean_linkedin_url and the
preservation of the parsed components follow.
-/

/-! ### Character lemmas for lowercasing -/

theorem toNat_ofNat_valid (n : Nat) (h : n < 55296) : (Char.ofNat n).toNat = n := by
  unfold Char.ofNat
  rw [dif_pos (Or.inl h)]
  rfl

theorem toLower_of_not_upper (c : Char) (h : ¬ (65 ≤ c.toNat ∧ c.toNat ≤ 90)) :
    Char.toLower c = c := by
  unfold Char.toLower
  rw [if_neg]
  intro hc
  exact h ⟨hc.1, hc.2⟩

theorem toNat_toLower_of_upper (c : Char) (h : 65 ≤ c.toNat ∧ c.toNat ≤ 90) :
    (Char.toLower c).toNat = c.toNat + 32 := by
  unfold Char.toLower
  rw [if_pos ⟨h.1, h.2⟩]
  exact toNat_ofNat_valid _ (by omega)

theorem toLower_idem (c : Char) : Char.toLower (Char.toLower c) = Char.toLower c := by
  by_cases h : 65 ≤ c.toNat ∧ c.toNat ≤ 90
  · have h1 := toNat_toLower_of_upper c h
    exact toLower_of_not_upper _ (by omega)
  · rw [toLower_of_not_upper c h, toLower_of_not_upper c h]

theorem asciiAlpha_toLower (c : Char) (h : asciiAlpha c = true) :
    asciiAlpha (Char.toLower c) = true := by
  by_cases hu : 65 ≤ c.toNat ∧ c.toNat ≤ 90
  · have h1 := toNat_toLower_of_upper c hu
    simp only [asciiAlpha, lowerAlpha, upperAlpha, h1, Bool.or_eq_true, decide_eq_true_eq]
    omega
  · rw [toLower_of_not_upper c hu]
    exact h

theorem schemeChar_toLower (c : Char) (h : schemeChar c = true) :
    schemeChar (Char.toLower c) = true := by
  by_cases hu : 65 ≤ c.toNat ∧ c.toNat ≤ 90
  · have h1 := toNat_toLower_of_upper c hu
    simp only [schemeChar, asciiAlpha, lowerAlpha, upperAlpha, asciiDigit, h1,
      Bool.or_eq_true, decide_eq_true_eq]
    omega
  · rw [toLower_of_not_upper c hu]
    exact h

theorem plainChar_toLower (c : Char) (h : plainChar c = true) :
    plainChar (Char.toLower c) = true := by
  by_cases hu : 65 ≤ c.toNat ∧ c.toNat ≤ 90
  · have h1 := toNat_toLower_of_upper c hu
    simp only [plainChar, h1, decide_eq_true_eq]
    omega
  · rw [toLower_of_not_upper c hu]
    exact h

theorem validScheme_all_schemeChar {s : Chars} (h : validScheme s = true) :
    ∀ c ∈ s, schemeChar c = true := by
  cases s with
  | nil => simp [validScheme] at h
  | cons a t =>
    simp only [validScheme, Bool.and_eq_true, List.all_eq_true] at h
    exact h.2

theorem validScheme_map_toLower {s : Chars} (h : validScheme s = true) :
    validScheme (s.map Char.toLower) = true := by
  cases s with
  | nil => simp [validScheme] at h
  | cons a t =>
    simp only [validScheme, Bool.and_eq_true, List.all_eq_true] at h
    simp only [List.map_cons, validScheme, Bool.and_eq_true, List.all_eq_true]
    constructor
    · exact asciiAlpha_toLower a h.1
    · intro c hc
      rw [← List.map_cons] at hc
      obtain ⟨d, hd, rfl⟩ := List.mem_map.mp hc
      exact schemeChar_toLower d (h.2 d hd)

theorem map_toLower_idem (s : Chars) :
    (s.map Char.toLower).map Char.toLower = s.map Char.toLower := by
  rw [List.map_map]
  apply List.map_congr_left
  intro c _
  exact toLower_idem c

theorem validScheme_false_of_mem {s : Chars} {c : Char} (hc : c ∈ s)
    (h : schemeChar c = false) : validScheme s = false := by
  cases s with
  | nil => rfl
  | cons a t =>
    simp only [validScheme]
    rw [Bool.and_eq_false_iff]
    right
    rw [List.all_eq_false]
    exact ⟨c, hc, by simp [h]⟩

/-! ### splitOnce, takeWhile and dropWhile lemmas -/

theorem splitOnce_some {d : Char} {l a b : Chars} (h : splitOnce d l = some (a, b)) :
    l = a ++ d :: b ∧ d ∉ a := by
  induction l generalizing a with
  | nil => simp [splitOnce] at h
  | cons c cs ih =>
    by_cases hc : c = d
    · subst hc
      simp [splitOnce] at h
      obtain ⟨rfl, rfl⟩ := h
      exact ⟨rfl, by simp⟩
    · simp only [splitOnce, if_neg hc] at h
      cases hsp : splitOnce d cs with
      | none => rw [hsp] at h; simp at h
      | some p =>
        rw [hsp] at h
        obtain ⟨a', b'⟩ := p
        simp at h
        obtain ⟨rfl, rfl⟩ := h
        obtain ⟨he, hm⟩ := ih hsp
        constructor
        · rw [he]; rfl
        · intro hmem
          rcases List.mem_cons.mp hmem with h1 | h1
          · exact hc h1.symm
          · exact hm h1

theorem splitOnce_none {d : Char} {l : Chars} (h : splitOnce d l = none) : d ∉ l := by
  induction l with
  | nil => simp
  | cons c cs ih =>
    by_cases hc : c = d
    · subst hc; simp [splitOnce] at h
    · simp only [splitOnce, if_neg hc] at h
      cases hsp : splitOnce d cs with
      | none =>
        intro hm
        rcases List.mem_cons.mp hm with h1 | h1
        · exact hc h1.symm
        · exact ih hsp h1
      | some p => rw [hsp] at h; simp at h

theorem splitOnce_append {d : Char} {a : Chars} (b : Chars) (h : d ∉ a) :
    splitOnce d (a ++ d :: b) = some (a, b) := by
  induction a with
  | nil => simp [splitOnce]
  | cons c cs ih =>
    have hc : ¬ c = d := fun hh => h (hh ▸ List.mem_cons_self c cs)
    have hcs : d ∉ cs := fun hh => h (List.mem_cons_of_mem c hh)
    rw [List.cons_append]
    unfold splitOnce
    rw [if_neg hc, ih hcs]

theorem splitOnce_of_not_mem {d : Char} {l : Chars} (h : d ∉ l) : splitOnce d l = none := by
  induction l with
  | nil => rfl
  | cons c cs ih =>
    have hc : ¬ c = d := fun hh => h (hh ▸ List.mem_cons_self c cs)
    have hcs : d ∉ cs := fun hh => h (List.mem_cons_of_mem c hh)
    simp only [splitOnce, if_neg hc, ih hcs]

theorem takeWhile_dropWhile_append {p : Char → Bool} {a b : Chars}
    (ha : ∀ c ∈ a, p c = true)
    (hb : b = [] ∨ ∃ c t, b = c :: t ∧ p c = false) :
    (a ++ b).takeWhile p = a ∧ (a ++ b).dropWhile p = b := by
  induction a with
  | nil =>
    rcases hb with rfl | ⟨c, t, rfl, hc⟩
    · simp
    · simp [List.takeWhile_cons, List.dropWhile_cons, hc]
  | cons x xs ih =>
    have hx : p x = true := ha x (List.mem_cons_self x xs)
    have hxs : ∀ c ∈ xs, p c = true := fun c hc => ha c (List.mem_cons_of_mem x hc)
    obtain ⟨h1, h2⟩ := ih hxs
    constructor
    · rw [List.cons_append, List.takeWhile_cons, if_pos hx, h1]
    · rw [List.cons_append, List.dropWhile_cons, if_pos hx, h2]

theorem dropWhile_head_not (p : Char → Bool) (l : Chars) :
    l.dropWhile p = [] ∨ ∃ c t, l.dropWhile p = c :: t ∧ p c = false := by
  induction l with
  | nil => left; rfl
  | cons x xs ih =>
    by_cases hx : p x = true
    · rw [List.dropWhile_cons, if_pos hx]
      exact ih
    · right
      exact ⟨x, xs, by rw [List.dropWhile_cons, if_neg hx], Bool.eq_false_iff.mpr hx⟩

/-! ### splitFragment, splitQuery and stripCtl lemmas -/

theorem splitFragment_eq (u : Chars) :
    (∃ rest, u = (splitFragment u).1 ++ rest) ∧ '#' ∉ (splitFragment u).1
      ∧ ∀ c ∈ (splitFragment u).2, c ∈ u := by
  unfold splitFragment
  cases hsp : splitOnce '#' u with
  | none => exact ⟨⟨[], by simp⟩, splitOnce_none hsp, by simp⟩
  | some p =>
    obtain ⟨a, b⟩ := p
    obtain ⟨he, hm⟩ := splitOnce_some hsp
    refine ⟨⟨'#' :: b, he⟩, hm, ?_⟩
    intro c hc
    rw [he]
    exact List.mem_append.mpr (Or.inr (List.mem_cons_of_mem _ hc))

theorem splitQuery_eq (u : Chars) :
    (∃ rest, u = (splitQuery u).1 ++ rest) ∧ '?' ∉ (splitQuery u).1 := by
  unfold splitQuery
  cases hsp : splitOnce '?' u with
  | none => exact ⟨⟨[], by simp⟩, splitOnce_none hsp⟩
  | some p =>
    obtain ⟨a, b⟩ := p
    obtain ⟨he, hm⟩ := splitOnce_some hsp
    exact ⟨⟨'?' :: b, he⟩, hm⟩

theorem splitFragment_of_not_mem {u : Chars} (h : '#' ∉ u) : splitFragment u = (u, []) := by
  unfold splitFragment
  rw [splitOnce_of_not_mem h]

theorem splitFragment_append {a f : Chars} (h : '#' ∉ a) :
    splitFragment (a ++ '#' :: f) = (a, f) := by
  unfold splitFragment
  rw [splitOnce_append f h]

theorem splitQuery_of_not_mem {u : Chars} (h : '?' ∉ u) : splitQuery u = (u, []) := by
  unfold splitQuery
  rw [splitOnce_of_not_mem h]

theorem stripCtl_eq_self {l : Chars} (h : ∀ c ∈ l, plainChar c = true) : stripCtl l = l :=
  List.filter_eq_self.mpr h

theorem netlocDelim_cases {c : Char} (h : netlocDelim c = true) :
    c = '/' ∨ c = '?' ∨ c = '#' := by
  simp only [netlocDelim, Bool.or_eq_true, beq_iff_eq] at h
  tauto

theorem validScheme_false_of_head {c : Char} (t : Chars) (h : asciiAlpha c = false) :
    validScheme (c :: t) = false := by
  simp [validScheme, h]

theorem splitScheme_spec (v : Chars) :
    (splitScheme v = ([], v) ∧ ∀ pre post, v = pre ++ ':' :: post → validScheme pre = false)
    ∨ (∃ pre post, v = pre ++ ':' :: post ∧ validScheme pre = true ∧
        splitScheme v = (pre.map Char.toLower, post)) := by
  cases hsp : splitOnce ':' v with
  | none =>
    left
    constructor
    · unfold splitScheme
      rw [hsp]
    · intro pre post he
      exfalso
      exact splitOnce_none hsp
        (he ▸ List.mem_append.mpr (Or.inr (List.mem_cons_self _ _)))
  | some p =>
    obtain ⟨pre0, post0⟩ := p
    obtain ⟨he, hm⟩ := splitOnce_some hsp
    by_cases hvs : validScheme pre0 = true
    · right
      refine ⟨pre0, post0, he, hvs, ?_⟩
      unfold splitScheme
      rw [hsp]
      dsimp only
      rw [if_pos hvs]
    · left
      constructor
      · unfold splitScheme
        rw [hsp]
        dsimp only
        rw [if_neg hvs]
      · intro pre post hdec
        by_cases hcp : ':' ∈ pre
        · exact validScheme_false_of_mem hcp (by decide)
        · have h2 : splitOnce ':' v = some (pre, post) := hdec ▸ splitOnce_append post hcp
          rw [hsp] at h2
          simp only [Option.some.injEq, Prod.mk.injEq] at h2
          rw [← h2.1]
          exact Bool.eq_false_iff.mpr hvs

theorem parseCore_range_aux {v s u1 : Chars}
    (hss : splitScheme v = (s, u1))
    (hplainv : ∀ c ∈ v, plainChar c = true)
    (hmem_u1 : ∀ c ∈ u1, c ∈ v)
    (hscheme_ok : s = [] ∨ validScheme s = true ∧ s.map Char.toLower = s)
    (hplain_s : ∀ c ∈ s, plainChar c = true)
    (hnf : s = [] → ∀ pre post, u1 = pre ++ ':' :: post → validScheme pre = false) :
    ParseRange (parseCore v) := by
  unfold parseCore
  rw [hss]
  dsimp only
  by_cases hnb : u1.take 2 = ['/', '/']
  · -- authority branch
    rw [if_pos hnb]
    simp only [splitNetloc]
    set n := (u1.drop 2).takeWhile (fun c => ! netlocDelim c) with hn
    set u2 := (u1.drop 2).dropWhile (fun c => ! netlocDelim c) with hu2
    have hmem_u2 : ∀ c ∈ u2, c ∈ v := fun c hc =>
      hmem_u1 c (List.mem_of_mem_drop ((List.dropWhile_sublist _).mem hc))
    have hmem_n : ∀ c ∈ n, c ∈ v := fun c hc =>
      hmem_u1 c (List.mem_of_mem_drop ((List.takeWhile_sublist _).mem hc))
    have hu2shape : u2 = [] ∨ ∃ c t, u2 = c :: t ∧ netlocDelim c = true := by
      rcases dropWhile_head_not (fun c => ! netlocDelim c) (u1.drop 2) with h | ⟨c, t, ht, hc⟩
      · left; rw [hu2]; exact h
      · right; exact ⟨c, t, by rw [hu2]; exact ht, by simpa using hc⟩
    obtain ⟨h1x, hnh, hfr⟩ := splitFragment_eq u2
    obtain ⟨h2x, hnq⟩ := splitQuery_eq (splitFragment u2).1
    rcases hf : splitFragment u2 with ⟨u3, f⟩
    rw [hf] at h1x hnh hfr h2x hnq
    simp only at h1x hnh hfr h2x hnq
    rcases hq : splitQuery u3 with ⟨pa, q⟩
    rw [hq] at h2x hnq
    simp only at h2x hnq
    obtain ⟨r1, h1⟩ := h1x
    obtain ⟨r2, h2⟩ := h2x
    have hpa_u2 : u2 = pa ++ (r2 ++ r1) := by rw [h1, h2, List.append_assoc]
    have hpashape : pa = [] ∨ ∃ d t, pa = d :: t ∧ netlocDelim d = true := by
      rcases hu2shape with h | ⟨c, t, ht, hc⟩
      · left
        rw [h] at hpa_u2
        exact (List.append_eq_nil.mp hpa_u2.symm).1
      · cases hpc : pa with
        | nil => left; rfl
        | cons d t' =>
          right
          refine ⟨d, t', rfl, ?_⟩
          rw [hpc] at hpa_u2
          rw [hpa_u2] at ht
          simp only [List.cons_append] at ht
          rw [← (List.cons.injEq _ _ _ _).mp ht |>.1] at hc
          exact hc
    have hpa_no_q : '?' ∉ pa := hnq
    have hpa_no_h : '#' ∉ pa := fun hmm =>
      hnh (h2 ▸ List.mem_append.mpr (Or.inl hmm))
    have hplain_pa : ∀ c ∈ pa, plainChar c = true := fun c hc =>
      hplainv c (hmem_u2 c (hpa_u2 ▸ List.mem_append.mpr (Or.inl hc)))
    refine ⟨hscheme_ok.imp id (fun h => h), ?_, hpa_no_q, hpa_no_h, ?_, ?_, hplain_s, ?_, hplain_pa, ?_⟩
    · -- netloc_ok
      intro c hc
      have := List.mem_takeWhile_imp (hn ▸ hc)
      simpa using this
    · -- slash_ok
      intro _
      rcases hpashape with h | ⟨d, t, ht, hd⟩
      · left; exact h
      · right
        rcases netlocDelim_cases hd with rfl | rfl | rfl
        · exact ⟨t, ht⟩
        · exact absurd (ht ▸ List.mem_cons_self _ _) hpa_no_q
        · exact absurd (ht ▸ List.mem_cons_self _ _) hpa_no_h
    · -- nofake
      intro _ _ pre' post' hdec
      rcases hpashape with h | ⟨d, t, ht, hd⟩
      · rw [h] at hdec
        exact absurd hdec.symm (by simp)
      · have hd' : d = '/' := by
          rcases netlocDelim_cases hd with rfl | rfl | rfl
          · rfl
          · exact absurd (ht ▸ List.mem_cons_self _ _) hpa_no_q
          · exact absurd (ht ▸ List.mem_cons_self _ _) hpa_no_h
        cases hpre : pre' with
        | nil => rfl
        | cons e t'' =>
          rw [ht, hpre] at hdec
          simp only [List.cons_append, List.cons.injEq] at hdec
          rw [← hdec.1, hd']
          exact validScheme_false_of_head _ (by decide)
    · -- plain_netloc
      intro c hc
      exact hplainv c (hmem_n c hc)
    · -- plain_frag
      intro c hc
      exact hplainv c (hmem_u2 c (hfr c hc))
  · -- no authority
    rw [if_neg hnb]
    obtain ⟨h1x, hnh, hfr⟩ := splitFragment_eq u1
    obtain ⟨h2x, hnq⟩ := splitQuery_eq (splitFragment u1).1
    rcases hf : splitFragment u1 with ⟨u3, f⟩
    rw [hf] at h1x hnh hfr h2x hnq
    simp only at h1x hnh hfr h2x hnq
    rcases hq : splitQuery u3 with ⟨pa, q⟩
    rw [hq] at h2x hnq
    simp only at h2x hnq
    obtain ⟨r1, h1⟩ := h1x
    obtain ⟨r2, h2⟩ := h2x
    have hpa_u1 : u1 = pa ++ (r2 ++ r1) := by rw [h1, h2, List.append_assoc]
    have hpa_no_h : '#' ∉ pa := fun hmm =>
      hnh (h2 ▸ List.mem_append.mpr (Or.inl hmm))
    dsimp only
    refine ⟨hscheme_ok, by simp, hnq, hpa_no_h, by simp, ?_, hplain_s, by simp, ?_, ?_⟩
    · -- nofake
      intro hs0 _ pre' post' hdec
      simp only at hdec
      apply hnf hs0 pre' (post' ++ (r2 ++ r1))
      rw [hpa_u1, hdec]
      simp [List.append_assoc]
    · -- plain_path
      intro c hc
      exact hplainv c (hmem_u1 c (hpa_u1 ▸ List.mem_append.mpr (Or.inl hc)))
    · -- plain_frag
      intro c hc
      exact hplainv c (hmem_u1 c (hfr c hc))

theorem urlparse_range (url : Chars) : ParseRange (urlparse url) := by
  unfold urlparse
  have hplainv : ∀ c ∈ stripCtl url, plainChar c = true := fun c hc => List.of_mem_filter hc
  rcases splitScheme_spec (stripCtl url) with ⟨hss, hnf⟩ | ⟨pre, post, hv, hvs, hss⟩
  · exact parseCore_range_aux hss hplainv (fun c hc => hc) (Or.inl rfl) (by simp)
      (fun _ => hnf)
  · apply parseCore_range_aux hss hplainv
    · intro c hc
      rw [hv]
      exact List.mem_append.mpr (Or.inr (List.mem_cons_of_mem _ hc))
    · exact Or.inr ⟨validScheme_map_toLower hvs, map_toLower_idem pre⟩
    · intro c hc
      obtain ⟨d, hd, rfl⟩ := List.mem_map.mp hc
      exact plainChar_toLower d (hplainv d (hv ▸ List.mem_append.mpr (Or.inl hd)))
    · intro hs0
      exfalso
      rw [List.map_eq_nil_iff] at hs0
      rw [hs0] at hvs
      simp [validScheme] at hvs

/-! ### Reassembly lemmas: parsing an urlunparse output -/

theorem splitScheme_eq_of_no_valid {v : Chars}
    (h : ∀ pre post, v = pre ++ ':' :: post → validScheme pre = false) :
    splitScheme v = ([], v) := by
  cases hsp : splitOnce ':' v with
  | none =>
    unfold splitScheme
    rw [hsp]
  | some p =>
    obtain ⟨pre, post⟩ := p
    obtain ⟨he, _⟩ := splitOnce_some hsp
    unfold splitScheme
    rw [hsp]
    dsimp only
    rw [if_neg]
    rw [h pre post he]
    simp

theorem splitScheme_canonical {s : Chars} (Z : Chars) (hvs : validScheme s = true)
    (hmap : s.map Char.toLower = s) : splitScheme (s ++ ':' :: Z) = (s, Z) := by
  have hnotin : ':' ∉ s := by
    intro hmm
    have h2 := validScheme_all_schemeChar hvs ':' hmm
    rw [show schemeChar ':' = false by decide] at h2
    exact absurd h2 (by simp)
  unfold splitScheme
  rw [splitOnce_append Z hnotin]
  dsimp only
  rw [if_pos hvs, hmap]

theorem no_valid_of_head_slash {W : Chars} :
    ∀ pre post, ('/' :: W) = pre ++ ':' :: post → validScheme pre = false := by
  intro pre post he
  cases pre with
  | nil => simp at he
  | cons e t =>
    simp only [List.cons_append, List.cons.injEq] at he
    rw [← he.1]
    exact validScheme_false_of_head _ (by decide)

theorem no_valid_append_frag {pa f : Chars}
    (hnof : ∀ pre post, pa = pre ++ ':' :: post → validScheme pre = false) :
    ∀ pre post, pa ++ (if f = [] then [] else '#' :: f) = pre ++ ':' :: post →
      validScheme pre = false := by
  intro pre post he
  by_cases hf : f = []
  · rw [if_pos hf, List.append_nil] at he
    exact hnof pre post he
  · rw [if_neg hf] at he
    rcases List.append_eq_append_iff.mp he with ⟨m, hpre, hrest⟩ | ⟨m, hpa, hrest⟩
    · cases m with
      | nil => simp at hrest
      | cons e t =>
        simp only [List.cons_append, List.cons.injEq] at hrest
        have : '#' ∈ pre := by
          rw [hpre, ← hrest.1]
          exact List.mem_append.mpr (Or.inr (List.mem_cons_self _ _))
        exact validScheme_false_of_mem this (by decide)
    · cases m with
      | nil => simp at hrest
      | cons e t =>
        simp only [List.cons_append, List.cons.injEq] at hrest
        refine hnof pre t ?_
        rw [hpa, hrest.1]
  
theorem take2_ne_slashslash {pa f : Chars} (hpa : pa.take 2 ≠ ['/', '/']) :
    (pa ++ (if f = [] then [] else '#' :: f)).take 2 ≠ ['/', '/'] := by
  match pa with
  | [] =>
    by_cases hf : f = []
    · rw [if_pos hf]
      simp
    · rw [if_neg hf]
      simp
  | [x] =>
    by_cases hf : f = []
    · rw [if_pos hf]
      simp only [List.append_nil]
      exact hpa
    · rw [if_neg hf]
      simp
  | x :: y :: t =>
    intro hc
    apply hpa
    simpa using hc

theorem mem_fragPart {f : Chars} {c : Char} (hc : c ∈ (if f = [] then [] else '#' :: f)) :
    c = '#' ∨ c ∈ f := by
  by_cases hf : f = []
  · rw [if_pos hf] at hc
    simp at hc
  · rw [if_neg hf] at hc
    exact List.mem_cons.mp hc

theorem splitNetloc_of_parts {n pa f : Chars}
    (hn : ∀ c ∈ n, netlocDelim c = false)
    (hpa : pa = [] ∨ ∃ t, pa = '/' :: t) :
    splitNetloc (n ++ (pa ++ (if f = [] then [] else '#' :: f))) =
      (n, pa ++ (if f = [] then [] else '#' :: f)) := by
  unfold splitNetloc
  have ha : ∀ c ∈ n, (fun c => ! netlocDelim c) c = true := by
    intro c hc
    simp [hn c hc]
  have hb : (pa ++ (if f = [] then [] else '#' :: f)) = [] ∨
      ∃ c t, (pa ++ (if f = [] then [] else '#' :: f)) = c :: t ∧
        (fun c => ! netlocDelim c) c = false := by
    rcases hpa with rfl | ⟨t, rfl⟩
    · by_cases hf : f = []
      · left
        rw [if_pos hf]
        rfl
      · right
        rw [if_neg hf]
        exact ⟨'#', f, rfl, by decide⟩
    · right
      exact ⟨'/', t ++ _, rfl, by decide⟩
  obtain ⟨h1, h2⟩ := takeWhile_dropWhile_append ha hb
  rw [h1, h2]

theorem parse_frag_query {pa f : Chars} (hnh : '#' ∉ pa) (hnq : '?' ∉ pa) :
    splitFragment (pa ++ (if f = [] then [] else '#' :: f)) = (pa, f)
    ∧ splitQuery pa = (pa, []) := by
  constructor
  · by_cases hf : f = []
    · rw [if_pos hf, List.append_nil, splitFragment_of_not_mem hnh, hf]
    · rw [if_neg hf]
      exact splitFragment_append hnh
  · exact splitQuery_of_not_mem hnq

theorem urlparse_urlunparse {p : UrlParts} (hp : ParseRange p) (hq : p.query = []) :
    urlparse (urlunparse p) = p := by
  obtain ⟨s, n, pa, q, f⟩ := p
  obtain ⟨hs_ok, hn_ok, hp_nq, hp_nh, hsl, hnof, hps, hpn, hpp, hpf⟩ := hp
  simp only at hs_ok hn_ok hp_nq hp_nh hsl hnof hps hpn hpp hpf hq
  subst hq
  unfold urlunparse
  dsimp only
  rw [if_neg (by simp : ¬ (([] : Chars) ≠ []))]
  by_cases hb : n ≠ [] ∨ pa.take 2 = ['/', '/']
  · -- authority present in the reassembly
    rw [if_pos hb]
    have hpashape : pa = [] ∨ ∃ t, pa = '/' :: t := by
      rcases hb with hb1 | hb2
      · exact hsl hb1
      · right
        cases pa with
        | nil => exact absurd hb2 (by simp)
        | cons x t =>
          cases t with
          | nil => exact absurd hb2 (by simp)
          | cons y t2 =>
            simp only [List.take, List.cons.injEq] at hb2
            exact ⟨y :: t2, by rw [hb2.1]⟩
    have hpa' : (if pa ≠ [] ∧ pa.take 1 ≠ ['/'] then '/' :: pa else pa) = pa := by
      rcases hpashape with rfl | ⟨t, rfl⟩
      · simp
      · simp
    rw [hpa']
    have hplainW : ∀ c ∈ '/' :: '/' :: (n ++ (pa ++ (if f = [] then [] else '#' :: f))),
        plainChar c = true := by
      intro c hc
      rcases List.mem_cons.mp hc with rfl | hc
      · decide
      rcases List.mem_cons.mp hc with rfl | hc
      · decide
      rcases List.mem_append.mp hc with hc | hc
      · exact hpn c hc
      rcases List.mem_append.mp hc with hc | hc
      · exact hpp c hc
      rcases mem_fragPart hc with rfl | hc
      · decide
      · exact hpf c hc
    rcases hs_ok with rfl | ⟨hvs, hsmap⟩
    · -- no scheme
      rw [if_neg (by simp : ¬ (([] : Chars) ≠ []))]
      have hfinal :
          (if f ≠ [] then ('/' :: '/' :: n ++ pa) ++ '#' :: f else '/' :: '/' :: n ++ pa) =
          '/' :: '/' :: (n ++ (pa ++ (if f = [] then [] else '#' :: f))) := by
        by_cases hf : f = []
        · simp [hf]
        · simp [hf, List.append_assoc]
      rw [hfinal]
      unfold urlparse
      rw [stripCtl_eq_self hplainW]
      unfold parseCore
      rw [splitScheme_eq_of_no_valid
        (@no_valid_of_head_slash ('/' :: (n ++ (pa ++ (if f = [] then [] else '#' :: f)))))]
      dsimp only
      rw [if_pos (by rfl :
        (('/' :: '/' :: (n ++ (pa ++ (if f = [] then [] else '#' :: f)))).take 2 = ['/', '/']))]
      show (match splitNetloc (n ++ (pa ++ (if f = [] then [] else '#' :: f))) with
        | (netloc, u2) =>
          match splitFragment u2 with
          | (u3, fragment) =>
            match splitQuery u3 with
            | (path, query) =>
              UrlParts.mk [] netloc path query fragment) = UrlParts.mk [] n pa [] f
      rw [splitNetloc_of_parts hn_ok hpashape]
      dsimp only
      rw [(parse_frag_query hp_nh hp_nq).1]
      dsimp only
      rw [splitQuery_of_not_mem hp_nq]
    · -- scheme present
      have hsne : s ≠ [] := by
        intro h0
        rw [h0] at hvs
        simp [validScheme] at hvs
      rw [if_pos hsne]
      have hplainS : ∀ c ∈ s ++ ':' :: ('/' :: '/' :: (n ++ (pa ++ (if f = [] then [] else '#' :: f)))),
          plainChar c = true := by
        intro c hc
        rcases List.mem_append.mp hc with hc | hc
        · exact hps c hc
        rcases List.mem_cons.mp hc with rfl | hc
        · decide
        · exact hplainW c hc
      have hfinal :
          (if f ≠ [] then (s ++ ':' :: ('/' :: '/' :: n ++ pa)) ++ '#' :: f
           else s ++ ':' :: ('/' :: '/' :: n ++ pa)) =
          s ++ ':' :: ('/' :: '/' :: (n ++ (pa ++ (if f = [] then [] else '#' :: f)))) := by
        by_cases hf : f = []
        · simp [hf]
        · simp [hf, List.append_assoc]
      rw [hfinal]
      unfold urlparse
      rw [stripCtl_eq_self hplainS]
      unfold parseCore
      rw [splitScheme_canonical _ hvs hsmap]
      dsimp only
      rw [if_pos (by rfl :
        (('/' :: '/' :: (n ++ (pa ++ (if f = [] then [] else '#' :: f)))).take 2 = ['/', '/']))]
      show (match splitNetloc (n ++ (pa ++ (if f = [] then [] else '#' :: f))) with
        | (netloc, u2) =>
          match splitFragment u2 with
          | (u3, fragment) =>
            match splitQuery u3 with
            | (path, query) =>
              UrlParts.mk s netloc path query fragment) = UrlParts.mk s n pa [] f
      rw [splitNetloc_of_parts hn_ok hpashape]
      dsimp only
      rw [(parse_frag_query hp_nh hp_nq).1]
      dsimp only
      rw [splitQuery_of_not_mem hp_nq]
  · -- no authority in the reassembly
    push_neg at hb
    obtain ⟨hn0, hpa2⟩ := hb
    subst hn0
    rw [if_neg (show ¬ ((([] : Chars) ≠ []) ∨ pa.take 2 = ['/', '/']) by simp [hpa2])]
    have hplainP : ∀ c ∈ pa ++ (if f = [] then [] else '#' :: f), plainChar c = true := by
      intro c hc
      rcases List.mem_append.mp hc with hc | hc
      · exact hpp c hc
      rcases mem_fragPart hc with rfl | hc
      · decide
      · exact hpf c hc
    rcases hs_ok with rfl | ⟨hvs, hsmap⟩
    · -- no scheme
      rw [if_neg (by simp : ¬ (([] : Chars) ≠ []))]
      have hfinal :
          (if f ≠ [] then pa ++ '#' :: f else pa) =
          pa ++ (if f = [] then [] else '#' :: f) := by
        by_cases hf : f = []
        · simp [hf]
        · simp [hf]
      rw [hfinal]
      unfold urlparse
      rw [stripCtl_eq_self hplainP]
      unfold parseCore
      rw [splitScheme_eq_of_no_valid (no_valid_append_frag (hnof rfl rfl))]
      dsimp only
      rw [if_neg (take2_ne_slashslash hpa2)]
      show (match splitFragment (pa ++ (if f = [] then [] else '#' :: f)) with
        | (u3, fragment) =>
          match splitQuery u3 with
          | (path, query) =>
            UrlParts.mk [] [] path query fragment) = UrlParts.mk [] [] pa [] f
      rw [(parse_frag_query hp_nh hp_nq).1]
      dsimp only
      rw [splitQuery_of_not_mem hp_nq]
    · -- scheme present
      have hsne : s ≠ [] := by
        intro h0
        rw [h0] at hvs
        simp [validScheme] at hvs
      rw [if_pos hsne]
      have hplainS : ∀ c ∈ s ++ ':' :: (pa ++ (if f = [] then [] else '#' :: f)),
          plainChar c = true := by
        intro c hc
        rcases List.mem_append.mp hc with hc | hc
        · exact hps c hc
        rcases List.mem_cons.mp hc with rfl | hc
        · decide
        · exact hplainP c hc
      have hfinal :
          (if f ≠ [] then (s ++ ':' :: pa) ++ '#' :: f else s ++ ':' :: pa) =
          s ++ ':' :: (pa ++ (if f = [] then [] else '#' :: f)) := by
        by_cases hf : f = []
        · simp [hf]
        · simp [hf, List.append_assoc]
      rw [hfinal]
      unfold urlparse
      rw [stripCtl_eq_self hplainS]
      unfold parseCore
      rw [splitScheme_canonical _ hvs hsmap]
      dsimp only
      rw [if_neg (take2_ne_slashslash hpa2)]
      show (match splitFragment (pa ++ (if f = [] then [] else '#' :: f)) with
        | (u3, fragment) =>
          match splitQuery u3 with
          | (path, query) =>
            UrlParts.mk s [] path query fragment) = UrlParts.mk s [] pa [] f
      rw [(parse_frag_query hp_nh hp_nq).1]
      dsimp only
      rw [splitQuery_of_not_mem hp_nq]

theorem parseRange_strip {p : UrlParts} (hp : ParseRange p) :
    ParseRange { p with query := [] } := by
  obtain ⟨h1, h2, h3, h4, h5, h6, h7, h8, h9, h10⟩ := hp
  exact ⟨h1, h2, h3, h4, h5, h6, h7, h8, h9, h10⟩

/-- C8 counterexample: the claim says clean_linkedin_url differs from its
input only by removal of the query component, preserving the scheme.  The
input below has no query at all, yet the output differs: urlparse
canonicalizes the scheme to lowercase. -/
theorem clean_url_uppercase_scheme_counterexample :
    '?' ∉ "HTTP://example.com/page".toList
    ∧ cleanUrlString "HTTP://example.com/page" = "http://example.com/page"
    ∧ cleanUrlString "HTTP://example.com/page" ≠ "HTTP://example.com/page" := by decide

/-- C8 amended: clean_linkedin_url is idempotent on every URL, and its
output parses to exactly the parse of the input with the query blanked:
the parsed scheme (already lowercased by urlparse), authority, path and
fragment are preserved and the query is removed.  For an input whose
text is already in parsed-canonical form, the output is therefore the
input with its query removed; an uppercase scheme is additionally
lowercased (see the counterexample). -/
theorem clean_url_idempotent_and_component_preserving (u : Chars) :
    clean_linkedin_url (clean_linkedin_url u) = clean_linkedin_url u
    ∧ urlparse (clean_linkedin_url u) = { urlparse u with query := [] } := by
  have h2 : urlparse (urlunparse { urlparse u with query := [] }) =
      { urlparse u with query := [] } :=
    urlparse_urlunparse (parseRange_strip (urlparse_range u)) rfl
  constructor
  · unfold clean_linkedin_url
    rw [h2]
  · exact h2
